import Mathlib

/-!
Shallow embedding of the `rust-streaming` chunk engine (`src/buffers.rs`)
and the streaming iteration loop construct (`src/iter.rs`), together with
theorems settling the specification claims.

Bytes are modelled as `Nat`, byte buffers as `List Nat`.  The fallible,
stateful byte-source trait (`std::io::Buffer`) is modelled as a record of
pure transition functions over a source-state type `σ`, and the loops in
`ChunkBuffer::top_up` and in the chunk-reading protocol are modelled with
explicit fuel.  Rust panics (failed `assert!`, out-of-bounds slicing) are
modelled as a distinct `panicked` outcome.
-/

namespace Streaming

/-- Kind of I/O error: the distinguished end-of-file signal, or any other
hard error (`IoError` with a kind other than `EndOfFile`). -/
inductive IoErrKind : Type where
  | endOfFile : IoErrKind
  | other : IoErrKind
deriving DecidableEq

/-- Model of the `std::io::Buffer` trait (the Source Capability): `fill`
returns a view of currently available unconsumed bytes (or an error) and a
new source state, `consume` removes bytes from the front, and `rem` is the
abstraction function giving the remaining unconsumed bytes of the stream. -/
structure Source (σ : Type) : Type where
  fill : σ → Except IoErrKind (List Nat) × σ
  consume : Nat → σ → σ
  rem : σ → List Nat

/-- Laws a well-behaved Source Capability (spec section 4.2) satisfies:
a successful `fill` returns a prefix of the remaining bytes and does not
consume; `EndOfInput` is only signalled at exhaustion (never an empty
success instead); errors do not mutate the remaining bytes; `consume n`
drops `n` bytes from the front. -/
structure Lawful {σ : Type} (S : Source σ) : Prop where
  fill_ok : ∀ s v s', S.fill s = (Except.ok v, s') →
    (∃ t, S.rem s = v ++ t) ∧ S.rem s' = S.rem s
  fill_eof : ∀ s s', S.fill s = (Except.error IoErrKind.endOfFile, s') →
    S.rem s = [] ∧ S.rem s' = []
  fill_hard : ∀ s s', S.fill s = (Except.error IoErrKind.other, s') →
    S.rem s' = S.rem s
  fill_at_end : ∀ s v s', S.rem s = [] → S.fill s ≠ (Except.ok v, s')
  consume_ok : ∀ n s, n ≤ (S.rem s).length →
    S.rem (S.consume n s) = (S.rem s).drop n

/-- Inner loop of `SliceContains::contains_slice_pos` for `&[u8]`
(`buffers.rs` lines 48-50): scan for two consecutive line-feed bytes,
returning the index of the first such pair. -/
def findNLNL : List Nat → Nat → Option Nat
  | a :: b :: rest, i =>
    if a = 10 ∧ b = 10 then some i else findNLNL (b :: rest) (i + 1)
  | _, _ => none

/-- Embedding of `contains_slice_pos` (`buffers.rs` lines 31-52): the
needle argument is ignored and the search is hardcoded to the byte pair
`[10, 10]`, exactly as in the source ("XXX - Ignores _needle for now"). -/
def contains_slice_pos (haystack _needle : List Nat) : Option Nat :=
  if haystack.length < 2 then none else findNLNL haystack 0

/-- Embedding of `contains_slice` (`buffers.rs` lines 25-27). -/
def contains_slice (haystack needle : List Nat) : Bool :=
  (contains_slice_pos haystack needle).isSome

/-- Specification-side genuine substring test: does `needle` occur as a
contiguous subsequence of `haystack`?  Written from the spec's Delimiter
Search contract (section 4.1), for comparison with the code's search. -/
def occurs (haystack needle : List Nat) : Bool :=
  (List.range (haystack.length + 1)).any
    (fun i => decide ((haystack.drop i).take needle.length = needle))

/-- Lower bound of the boundary-spanning scan window
(`buffers.rs` lines 149-150): `buf_len - min(buf_len, bound_len - 1)`. -/
def scan_start (buf_len bound_len : Nat) : Nat :=
  buf_len - min buf_len (bound_len - 1)

/-- Upper bound of the boundary-spanning scan window
(`buffers.rs` lines 151-152): `min(buf_len + (bound_len-1), buf_len + read_len)`. -/
def scan_end (buf_len bound_len read_len : Nat) : Nat :=
  min (buf_len + (bound_len - 1)) (buf_len + read_len)

/-- The slice of the grown accumulation buffer actually checked for a
boundary-spanning delimiter (`buffers.rs` lines 154-155):
`buffer.slice(scan_start, scan_end)`. -/
def scanWindow (buffer' : List Nat) (buf_len bound_len read_len : Nat) : List Nat :=
  (buffer'.take (scan_end buf_len bound_len read_len)).drop (scan_start buf_len bound_len)

/-- State of a `ChunkBuffer` (`buffers.rs` lines 104-108): the configured
boundary, the owned accumulation buffer, and the wrapped source's state. -/
structure CB (σ : Type) : Type where
  boundary : List Nat
  buffer : List Nat
  src : σ
deriving DecidableEq

/-- Outcome of one `fill_buf`/`top_up` call: a successful borrowed view
together with the new engine state, an end-of-file error, a hard error, a
Rust panic (failed assertion or out-of-bounds slice), or fuel exhaustion
of the model. -/
inductive FillOut (σ : Type) : Type where
  | ok (view : List Nat) (e : CB σ)
  | eofErr (e : CB σ)
  | hardErr (e : CB σ)
  | panicked
  | nofuel
deriving DecidableEq

/-- Embedding of the loop in `ChunkBuffer::top_up` (`buffers.rs` lines
123-170).  Each iteration fills from the source; end-of-file returns the
buffer as-is (Exit 1), a hard error propagates (Exit 2); on a view that
contains the (hardcoded) delimiter the prefix through the end of the
occurrence is appended and consumed, otherwise the whole view is appended
and consumed and the scan window is checked; `done` returns the buffer
after the exit assertion (Exit 3).  Out-of-bounds slicing of
`read[..bytes]` and assertion failures are `panicked`. -/
def topUpLoop {σ : Type} (S : Source σ) (bnd : List Nat) :
    Nat → List Nat → σ → FillOut σ
  | 0, _, _ => FillOut.nofuel
  | fuel + 1, buffer, s =>
    match S.fill s with
    | (Except.error IoErrKind.endOfFile, s') => FillOut.ok buffer ⟨bnd, buffer, s'⟩
    | (Except.error IoErrKind.other, s') => FillOut.hardErr ⟨bnd, buffer, s'⟩
    | (Except.ok read, s') =>
      match contains_slice_pos read bnd with
      | some pos =>
        if pos + bnd.length ≤ read.length then
          if contains_slice (buffer ++ read.take (pos + bnd.length)) bnd then
            FillOut.ok (buffer ++ read.take (pos + bnd.length))
              ⟨bnd, buffer ++ read.take (pos + bnd.length),
                S.consume (pos + bnd.length) s'⟩
          else FillOut.panicked
        else FillOut.panicked
      | none =>
        if contains_slice (scanWindow (buffer ++ read) buffer.length bnd.length read.length) bnd then
          if contains_slice (buffer ++ read) bnd then
            FillOut.ok (buffer ++ read)
              ⟨bnd, buffer ++ read, S.consume read.length s'⟩
          else FillOut.panicked
        else topUpLoop S bnd fuel (buffer ++ read) (S.consume read.length s')

/-- Embedding of `ChunkBuffer::top_up` (`buffers.rs` lines 120-171): the
entry assertion that the buffer does not already contain the boundary,
followed by the loop. -/
def top_up {σ : Type} (S : Source σ) (fuel : Nat) (e : CB σ) : FillOut σ :=
  if contains_slice e.buffer e.boundary then FillOut.panicked
  else topUpLoop S e.boundary fuel e.buffer e.src

/-- Embedding of `ChunkBuffer::fill_buf` (`buffers.rs` lines 184-218):
Exit 1 returns valid local data; Exit 2 tops up a non-empty buffer;
Exit 3 propagates a source error when the buffer is empty; Exit 4 is the
zero-copy fast path returning the source's own view; Exit 5 tops up from
empty. -/
def fill_buf {σ : Type} (S : Source σ) (fuel : Nat) (e : CB σ) : FillOut σ :=
  if contains_slice e.buffer e.boundary then FillOut.ok e.buffer e
  else if 0 < e.buffer.length then top_up S fuel e
  else
    match S.fill e.src with
    | (Except.error IoErrKind.endOfFile, s') => FillOut.eofErr ⟨e.boundary, e.buffer, s'⟩
    | (Except.error IoErrKind.other, s') => FillOut.hardErr ⟨e.boundary, e.buffer, s'⟩
    | (Except.ok read, s') =>
      if contains_slice read e.boundary then FillOut.ok read ⟨e.boundary, e.buffer, s'⟩
      else top_up S fuel ⟨e.boundary, e.buffer, s'⟩

/-- Embedding of `Vec::swap_remove(i)`: replace the element at index `i`
with the last element and pop the last element. -/
def swap_remove (l : List Nat) (i : Nat) : List Nat :=
  (l.set i (l.getD (l.length - 1) 0)).dropLast

/-- The `for i in range(0, keeping)` loop of `ChunkBuffer::consume`
(`buffers.rs` lines 224-226): successive `swap_remove(keeping - (i+1))`. -/
def consumeLoopBuf (keeping : Nat) (buffer : List Nat) : List Nat :=
  (List.range keeping).foldl (fun b i => swap_remove b (keeping - (i + 1))) buffer

/-- Effect of `ChunkBuffer::consume(amt)` on a non-empty accumulation
buffer (`buffers.rs` lines 222-227): the swap_remove loop followed by
`truncate(keeping)`. -/
def consumeBuffer (buffer : List Nat) (amt : Nat) : List Nat :=
  (consumeLoopBuf (buffer.length - amt) buffer).take (buffer.length - amt)

/-- Embedding of `ChunkBuffer::consume` (`buffers.rs` lines 220-231):
with a non-empty buffer the amount must not exceed the buffer length
(`assert!`, modelled as `none` on failure) and the buffer is rewritten by
the swap_remove loop; with an empty buffer the call is forwarded to the
source. -/
def consume {σ : Type} (S : Source σ) (amt : Nat) (e : CB σ) : Option (CB σ) :=
  if 0 < e.buffer.length then
    if amt ≤ e.buffer.length then
      some ⟨e.boundary, consumeBuffer e.buffer amt, e.src⟩
    else none
  else some ⟨e.boundary, e.buffer, S.consume amt e.src⟩

/-- Outcome of driving the chunk protocol to completion: the chunks read
before end-of-input, a hard error, a panic, or fuel exhaustion. -/
inductive RunOut (σ : Type) : Type where
  | done (chunks : List (List Nat)) (e : CB σ)
  | hardErr (chunks : List (List Nat)) (e : CB σ)
  | panicked
  | nofuel
deriving DecidableEq

/-- The chunk-reading protocol (as in `read_chunks`, `buffers.rs` lines
235-255): repeatedly `fill_buf`, record the returned chunk, consume it in
full, until the engine reports end-of-file. -/
def runChunks {σ : Type} (S : Source σ) (ft : Nat) :
    Nat → CB σ → List (List Nat) → RunOut σ
  | 0, _, _ => RunOut.nofuel
  | n + 1, e, acc =>
    match fill_buf S ft e with
    | FillOut.ok view e' =>
      match consume S view.length e' with
      | some e'' => runChunks S ft n e'' (acc ++ [view])
      | none => RunOut.panicked
    | FillOut.eofErr e' => RunOut.done acc e'
    | FillOut.hardErr e' => RunOut.hardErr acc e'
    | FillOut.panicked => RunOut.panicked
    | FillOut.nofuel => RunOut.nofuel

/-- Model of `MemReader`: an in-memory source whose `fill` returns all
remaining bytes (end-of-file when none remain) and whose `consume` drops
from the front. -/
def memSrc : Source (List Nat) where
  fill := fun l =>
    if l = [] then (Except.error IoErrKind.endOfFile, l) else (Except.ok l, l)
  consume := fun n l => l.drop n
  rem := fun l => l

/-- Embedding of `DribbleBuffer` (`buffers.rs` lines 74-84), the
Fragmenting Test Source: wraps a source and returns
`original[..min(original.len(), limit)]` where `limit = rng % 6`; the
random draws are modelled as an explicit list of numbers consumed one per
successful fill.  `consume` forwards unchanged. -/
def dribble {σ : Type} (S : Source σ) : Source (σ × List Nat) where
  fill := fun p =>
    match S.fill p.1 with
    | (Except.ok original, s') =>
      (Except.ok (original.take (min original.length (p.2.headD 0 % 6))),
        (s', p.2.tail))
    | (Except.error ek, s') => (Except.error ek, (s', p.2))
  consume := fun n p => (S.consume n p.1, p.2)
  rem := fun p => S.rem p.1

/-- An in-memory source that can also inject hard I/O errors: the boolean
script decides, one entry per fill call, whether that fill raises a hard
error instead of returning the remaining bytes.  Used to exercise the
error-propagation paths of the engine. -/
def errSrc : Source (List Nat × List Bool) where
  fill := fun p =>
    if p.2.headD false then (Except.error IoErrKind.other, (p.1, p.2.tail))
    else if p.1 = [] then (Except.error IoErrKind.endOfFile, (p.1, p.2.tail))
    else (Except.ok p.1, (p.1, p.2.tail))
  consume := fun n p => (p.1.drop n, p.2)
  rem := fun p => p.1

/-- Result of one execution of a loop body: continue the loop or break
out of it (early exit). -/
inductive BodyStep (B : Type) : Type where
  | cont (b : B)
  | brk (b : B)

/-- The loop emitted by the `streaming_for!` macro expansion
(`iter.rs` lines 21-27): repeatedly invoke `next` on the already-bound
iterator, stop at the first `None`, run the body on each `Some` item, and
stop early when the body breaks.  The iterator is a state machine
`nx : S → Option T × S`; the body threads an accumulator `B`.  Fuel
bounds the model; `none` means fuel ran out. -/
def streamingForLoop {S T B : Type} (nx : S → Option T × S)
    (body : T → B → BodyStep B) : Nat → S → B → Option (S × B)
  | 0, _, _ => none
  | fuel + 1, s, b =>
    match nx s with
    | (none, s') => some (s', b)
    | (some t, s') =>
      match body t b with
      | BodyStep.brk b' => some (s', b')
      | BodyStep.cont b' => streamingForLoop nx body fuel s' b'

/-- The whole `streaming_for!` expansion (`iter.rs` lines 16-29): first
evaluate the iterator-producing expression exactly once (`let ref mut
iter = &mut $expr`), then run the loop.  The expression is modelled as a
function `expr` on an ambient state `Γ` (so its side effects are
observable), evaluated a single time. -/
def streaming_for {Γ S T B : Type} (expr : Γ → S × Γ) (nx : S → Option T × S)
    (body : T → B → BodyStep B) (fuel : Nat) (g : Γ) (b : B) :
    Γ × Option (S × B) :=
  match expr g with
  | (s, g') => (g', streamingForLoop nx body fuel s b)

/-- Specification-side trace: the items yielded by successive `next`
calls, in order, up to the first `None`, cut short just after the first
item satisfying `stop` (the early exit). -/
def yieldedUntil {S T : Type} (nx : S → Option T × S) (stop : T → Bool) :
    Nat → S → List T
  | 0, _ => []
  | fuel + 1, s =>
    match nx s with
    | (none, _) => []
    | (some t, s') => if stop t then [t] else t :: yieldedUntil nx stop fuel s'

/-- A loop body that records every item it is executed on, breaking when
`stop` holds of the item. -/
def recBody {T : Type} (stop : T → Bool) (t : T) (l : List T) : BodyStep (List T) :=
  if stop t then BodyStep.brk (l ++ [t]) else BodyStep.cont (l ++ [t])

lemma contains_slice_nil (bnd : List Nat) : contains_slice [] bnd = false := rfl

lemma ne_nil_of_contains_slice {l bnd : List Nat}
    (h : contains_slice l bnd = true) : l ≠ [] := by
  intro hl
  subst hl
  simp [contains_slice_nil] at h

lemma consumeBuffer_full (b : List Nat) : consumeBuffer b b.length = [] := by
  simp [consumeBuffer, consumeLoopBuf]

lemma mem_lawful : Lawful memSrc := by
  constructor
  · intro s v s' h
    by_cases hs : s = [] <;> simp [memSrc, hs] at h
    obtain ⟨rfl, rfl⟩ := h
    exact ⟨⟨[], by simp [memSrc]⟩, by simp [memSrc]⟩
  · intro s s' h
    by_cases hs : s = [] <;> simp [memSrc, hs] at h
    obtain rfl := h
    simp [memSrc, hs]
  · intro s s' h
    by_cases hs : s = [] <;> simp [memSrc, hs] at h
  · intro s v s' h hfill
    rw [show memSrc.rem s = s from rfl] at h
    simp [memSrc, h] at hfill
  · intro n s _
    simp [memSrc]

lemma dribble_lawful {σ : Type} {S : Source σ} (L : Lawful S) :
    Lawful (dribble S) := by
  constructor
  · intro p v p' h
    simp only [dribble] at h
    rcases hf : S.fill p.1 with ⟨res, s'⟩
    rw [hf] at h
    rcases res with ek | orig
    · simp at h
    · simp only [Prod.mk.injEq, Except.ok.injEq] at h
      obtain ⟨rfl, rfl⟩ := h
      obtain ⟨⟨t, ht⟩, hrem⟩ := L.fill_ok _ _ _ hf
      refine ⟨⟨orig.drop (min orig.length (p.2.headD 0 % 6)) ++ t, ?_⟩, ?_⟩
      · show S.rem p.1 = _
        rw [ht, ← List.append_assoc, List.take_append_drop]
      · show S.rem s' = S.rem p.1
        exact hrem
  · intro p p' h
    simp only [dribble] at h
    rcases hf : S.fill p.1 with ⟨res, s'⟩
    rw [hf] at h
    rcases res with ek | orig
    · rcases ek <;> simp at h
      · obtain ⟨rfl, rfl⟩ := h
        exact L.fill_eof _ _ hf
    · simp at h
  · intro p p' h
    simp only [dribble] at h
    rcases hf : S.fill p.1 with ⟨res, s'⟩
    rw [hf] at h
    rcases res with ek | orig
    · rcases ek <;> simp at h
      obtain ⟨rfl, rfl⟩ := h
      exact L.fill_hard _ _ hf
    · simp at h
  · intro p v p' h hfill
    simp only [dribble] at hfill
    rcases hf : S.fill p.1 with ⟨res, s'⟩
    rw [hf] at hfill
    rcases res with ek | orig
    · simp at hfill
    · exact L.fill_at_end _ _ _ h hf
  · intro n p h
    exact L.consume_ok n p.1 h

lemma errSrc_fill_eq (l : List Nat) (bs : List Bool) :
    errSrc.fill (l, bs) =
      if bs.headD false = true then (Except.error IoErrKind.other, (l, bs.tail))
      else if l = [] then (Except.error IoErrKind.endOfFile, (l, bs.tail))
      else (Except.ok l, (l, bs.tail)) := rfl

lemma err_lawful : Lawful errSrc := by
  constructor
  · rintro ⟨l, bs⟩ v p' h
    rw [errSrc_fill_eq] at h
    by_cases hb : bs.headD false = true
    · rw [if_pos hb] at h; exact absurd h (by simp)
    · rw [if_neg hb] at h
      by_cases hl : l = []
      · rw [if_pos hl] at h; exact absurd h (by simp)
      · rw [if_neg hl] at h
        simp only [Prod.mk.injEq, Except.ok.injEq] at h
        obtain ⟨rfl, rfl⟩ := h
        exact ⟨⟨[], by simp [errSrc]⟩, rfl⟩
  · rintro ⟨l, bs⟩ p' h
    rw [errSrc_fill_eq] at h
    by_cases hb : bs.headD false = true
    · rw [if_pos hb] at h; exact absurd h (by simp)
    · rw [if_neg hb] at h
      by_cases hl : l = []
      · rw [if_pos hl] at h
        simp only [Prod.mk.injEq] at h
        obtain ⟨-, rfl⟩ := h
        exact ⟨hl, hl⟩
      · rw [if_neg hl] at h; exact absurd h (by simp)
  · rintro ⟨l, bs⟩ p' h
    rw [errSrc_fill_eq] at h
    by_cases hb : bs.headD false = true
    · rw [if_pos hb] at h
      simp only [Prod.mk.injEq] at h
      obtain ⟨-, rfl⟩ := h
      rfl
    · rw [if_neg hb] at h
      by_cases hl : l = []
      · rw [if_pos hl] at h; exact absurd h (by simp)
      · rw [if_neg hl] at h; exact absurd h (by simp)
  · rintro ⟨l, bs⟩ v p' h hfill
    rw [show errSrc.rem (l, bs) = l from rfl] at h
    rw [errSrc_fill_eq, h] at hfill
    by_cases hb : bs.headD false = true
    · rw [if_pos hb] at hfill; exact absurd hfill (by simp)
    · rw [if_neg hb, if_pos rfl] at hfill; exact absurd hfill (by simp)
  · intro n p _
    simp [errSrc]

lemma topUpLoop_ok_spec {σ : Type} {S : Source σ} (L : Lawful S) (bnd : List Nat) :
    ∀ (fuel : Nat) (buffer : List Nat) (s : σ) (view : List Nat) (e' : CB σ),
      topUpLoop S bnd fuel buffer s = FillOut.ok view e' →
      view = e'.buffer ∧ e'.boundary = bnd ∧
      buffer ++ S.rem s = e'.buffer ++ S.rem e'.src ∧
      (∃ t, e'.buffer = buffer ++ t) ∧
      (contains_slice e'.buffer bnd = true ∨ S.rem e'.src = []) := by
  intro fuel
  induction fuel with
  | zero =>
    intro buffer s view e' h
    simp [topUpLoop] at h
  | succ f ih =>
    intro buffer s view e' h
    simp only [topUpLoop] at h
    split at h
    · -- Exit 1: end of file, return the buffer as-is
      rename_i s' heq
      simp only [FillOut.ok.injEq] at h
      obtain ⟨rfl, rfl⟩ := h
      obtain ⟨h1, h2⟩ := L.fill_eof _ _ heq
      exact ⟨rfl, rfl, by rw [h1, h2], ⟨[], by simp⟩, Or.inr h2⟩
    · -- Exit 2: hard error (no ok result)
      simp at h
    · -- a successful read
      rename_i read s' heq
      obtain ⟨⟨t, ht⟩, hrem⟩ := L.fill_ok _ _ _ heq
      have hlen : read.length ≤ (S.rem s).length := by
        rw [ht]; simp
      split at h
      · -- the read contains the (hardcoded) delimiter
        rename_i pos hpos
        split at h
        · rename_i hbytes
          split at h
          · rename_i hass
            simp only [FillOut.ok.injEq] at h
            obtain ⟨rfl, rfl⟩ := h
            refine ⟨rfl, rfl, ?_, ⟨read.take (pos + bnd.length), rfl⟩, Or.inl hass⟩
            have hcons : S.rem (S.consume (pos + bnd.length) s') =
                (S.rem s).drop (pos + bnd.length) := by
              rw [← hrem] at hlen
              rw [L.consume_ok _ _ (le_trans hbytes hlen), hrem]
            show buffer ++ S.rem s = buffer ++ read.take (pos + bnd.length) ++ _
            rw [hcons, List.append_assoc]
            congr 1
            have htake : List.take (pos + bnd.length) (read ++ t) =
                List.take (pos + bnd.length) read :=
              List.take_append_of_le_length hbytes
            rw [ht, ← htake, List.take_append_drop]
          · simp at h
        · simp at h
      · -- the read does not contain the delimiter: append it all
        rename_i hpos
        have hcons : S.rem (S.consume read.length s') = t := by
          rw [← hrem] at hlen
          rw [L.consume_ok _ _ hlen, hrem, ht, List.drop_left]
        have hgrow : buffer ++ S.rem s =
            (buffer ++ read) ++ S.rem (S.consume read.length s') := by
          rw [hcons, ht, List.append_assoc]
        split at h
        · split at h
          · rename_i hass
            simp only [FillOut.ok.injEq] at h
            obtain ⟨rfl, rfl⟩ := h
            exact ⟨rfl, rfl, by simpa using hgrow, ⟨read, rfl⟩, Or.inl hass⟩
          · simp at h
        · -- loop again with the grown buffer
          obtain ⟨hview, hbnd, hinv, ⟨t2, ht2⟩, hdisj⟩ := ih _ _ _ _ h
          exact ⟨hview, hbnd, by rw [hgrow, hinv], ⟨read ++ t2, by rw [ht2, List.append_assoc]⟩,
            hdisj⟩

lemma topUpLoop_hard_spec {σ : Type} {S : Source σ} (L : Lawful S) (bnd : List Nat) :
    ∀ (fuel : Nat) (buffer : List Nat) (s : σ) (e' : CB σ),
      topUpLoop S bnd fuel buffer s = FillOut.hardErr e' →
      e'.boundary = bnd ∧ (∃ t, e'.buffer = buffer ++ t) ∧
      buffer ++ S.rem s = e'.buffer ++ S.rem e'.src := by
  intro fuel
  induction fuel with
  | zero =>
    intro buffer s e' h
    simp [topUpLoop] at h
  | succ f ih =>
    intro buffer s e' h
    simp only [topUpLoop] at h
    split at h
    · simp at h
    · -- Exit 2: the hard error itself mutates nothing
      rename_i s' heq
      simp only [FillOut.hardErr.injEq] at h
      obtain rfl := h
      exact ⟨rfl, ⟨[], by simp⟩, by rw [L.fill_hard _ _ heq]⟩
    · rename_i read s' heq
      obtain ⟨⟨t, ht⟩, hrem⟩ := L.fill_ok _ _ _ heq
      have hlen : read.length ≤ (S.rem s).length := by
        rw [ht]; simp
      split at h
      · split at h
        · split at h <;> simp at h
        · simp at h
      · split at h
        · split at h <;> simp at h
        · have hcons : S.rem (S.consume read.length s') = t := by
            rw [← hrem] at hlen
            rw [L.consume_ok _ _ hlen, hrem, ht, List.drop_left]
          obtain ⟨hbnd, ⟨t2, ht2⟩, hinv⟩ := ih _ _ _ h
          refine ⟨hbnd, ⟨read ++ t2, by rw [ht2, List.append_assoc]⟩, ?_⟩
          rw [ht, show buffer ++ (read ++ t) = (buffer ++ read) ++ t by
            rw [List.append_assoc], ← hcons, hinv]

lemma topUpLoop_ne_eof {σ : Type} (S : Source σ) (bnd : List Nat) :
    ∀ (fuel : Nat) (buffer : List Nat) (s : σ) (e' : CB σ),
      topUpLoop S bnd fuel buffer s ≠ FillOut.eofErr e' := by
  intro fuel
  induction fuel with
  | zero =>
    intro buffer s e' h
    simp [topUpLoop] at h
  | succ f ih =>
    intro buffer s e' h
    simp only [topUpLoop] at h
    split at h
    · simp at h
    · simp at h
    · split at h
      · split at h
        · split at h <;> simp at h
        · simp at h
      · split at h
        · split at h <;> simp at h
        · exact ih _ _ _ h

lemma fill_round_spec {σ : Type} {S : Source σ} (L : Lawful S) (ft : Nat)
    (e : CB σ) (view : List Nat) (e' : CB σ)
    (h : fill_buf S ft e = FillOut.ok view e') :
    ∃ e'', consume S view.length e' = some e'' ∧ e''.buffer = [] ∧
      e''.boundary = e.boundary ∧
      view ++ S.rem e''.src = e.buffer ++ S.rem e.src := by
  simp only [fill_buf] at h
  split at h
  · -- Exit 1: the buffer already holds a delimited chunk
    rename_i hc
    simp only [FillOut.ok.injEq] at h
    obtain ⟨rfl, rfl⟩ := h
    have hne : e.buffer ≠ [] := ne_nil_of_contains_slice hc
    refine ⟨⟨e.boundary, [], e.src⟩, ?_, rfl, rfl, rfl⟩
    simp only [consume, List.length_pos.mpr hne, if_pos, le_refl, if_true,
      consumeBuffer_full]
  · split at h
    · -- Exit 2: top up a non-empty buffer
      rename_i hc hpos
      rw [top_up, if_neg (by simp [hc])] at h
      obtain ⟨hview, hbnd, hinv, ⟨t, ht⟩, -⟩ := topUpLoop_ok_spec L _ _ _ _ _ _ h
      have hne : e'.buffer ≠ [] := by
        rw [ht]
        intro hcon
        rcases List.append_eq_nil.mp hcon with ⟨h1, -⟩
        rw [h1] at hpos
        simp at hpos
      refine ⟨⟨e'.boundary, [], e'.src⟩, ?_, rfl, by rw [hbnd], ?_⟩
      · simp only [consume, List.length_pos.mpr hne, if_pos, hview, le_refl,
          if_true, consumeBuffer_full]
      · rw [hview, hinv]
    · -- the buffer is empty
      rename_i hc hlen
      have hbuf : e.buffer = [] :=
        List.length_eq_zero.mp (Nat.eq_zero_of_not_pos hlen)
      split at h
      · simp at h
      · simp at h
      · rename_i read s' heq
        obtain ⟨⟨t, ht⟩, hrem⟩ := L.fill_ok _ _ _ heq
        have hlenr : read.length ≤ (S.rem s').length := by
          rw [hrem, ht]; simp
        split at h
        · -- Exit 4: zero-copy fast path
          simp only [FillOut.ok.injEq] at h
          obtain ⟨rfl, rfl⟩ := h
          refine ⟨⟨e.boundary, e.buffer, S.consume read.length s'⟩, ?_, hbuf, rfl, ?_⟩
          · simp [consume, hbuf]
          · rw [hbuf, L.consume_ok _ _ hlenr, hrem, ht, List.drop_left]
            simp
        · -- Exit 5: top up from empty
          rw [top_up, if_neg (by simp [hbuf, contains_slice_nil])] at h
          obtain ⟨hview, hbnd, hinv, -, hdisj⟩ := topUpLoop_ok_spec L _ _ _ _ _ _ h
          rw [hbuf] at hinv
          have hsne : S.rem s' ≠ [] := by
            rw [hrem]
            intro hcon
            exact L.fill_at_end _ _ _ hcon heq
          have hne : e'.buffer ≠ [] := by
            rcases hdisj with hd | hd
            · exact ne_nil_of_contains_slice hd
            · rw [hd, List.append_nil] at hinv
              rw [← hinv]
              simpa using hsne
          refine ⟨⟨e'.boundary, [], e'.src⟩, ?_, rfl, by rw [hbnd], ?_⟩
          · simp only [consume, List.length_pos.mpr hne, if_pos, hview, le_refl,
              if_true, consumeBuffer_full]
          · dsimp only at hinv ⊢
            rw [hview, ← hinv, hrem, hbuf]

lemma fill_eof_spec {σ : Type} {S : Source σ} (L : Lawful S) (ft : Nat)
    (e : CB σ) (e' : CB σ) (h : fill_buf S ft e = FillOut.eofErr e') :
    e.buffer = [] ∧ e'.buffer = [] ∧ S.rem e.src = [] ∧ S.rem e'.src = [] := by
  simp only [fill_buf] at h
  split at h
  · simp at h
  · split at h
    · rw [top_up] at h
      split at h
      · simp at h
      · exact absurd h (topUpLoop_ne_eof S _ _ _ _ _)
    · rename_i hc hlen
      have hbuf : e.buffer = [] :=
        List.length_eq_zero.mp (Nat.eq_zero_of_not_pos hlen)
      split at h
      · rename_i s' heq
        simp only [FillOut.eofErr.injEq] at h
        obtain rfl := h
        obtain ⟨h1, h2⟩ := L.fill_eof _ _ heq
        exact ⟨hbuf, hbuf, h1, h2⟩
      · simp at h
      · split at h
        · simp at h
        · rw [top_up] at h
          split at h
          · simp at h
          · exact absurd h (topUpLoop_ne_eof S _ _ _ _ _)

lemma fill_hard_spec {σ : Type} {S : Source σ} (L : Lawful S) (ft : Nat)
    (e : CB σ) (e' : CB σ) (h : fill_buf S ft e = FillOut.hardErr e') :
    (∃ t, e'.buffer = e.buffer ++ t) ∧
    e.buffer ++ S.rem e.src = e'.buffer ++ S.rem e'.src ∧
    e'.boundary = e.boundary := by
  simp only [fill_buf] at h
  split at h
  · simp at h
  · split at h
    · rename_i hc hpos
      rw [top_up, if_neg (by simp [hc])] at h
      obtain ⟨hbnd, hpre, hinv⟩ := topUpLoop_hard_spec L _ _ _ _ _ h
      exact ⟨hpre, hinv, hbnd⟩
    · rename_i hc hlen
      have hbuf : e.buffer = [] :=
        List.length_eq_zero.mp (Nat.eq_zero_of_not_pos hlen)
      split at h
      · simp at h
      · rename_i s' heq
        simp only [FillOut.hardErr.injEq] at h
        obtain rfl := h
        exact ⟨⟨[], by simp⟩, by rw [L.fill_hard _ _ heq], rfl⟩
      · rename_i read s' heq
        obtain ⟨⟨t, ht⟩, hrem⟩ := L.fill_ok _ _ _ heq
        split at h
        · simp at h
        · rw [top_up, if_neg (by simp [hbuf, contains_slice_nil])] at h
          obtain ⟨hbnd, hpre, hinv⟩ := topUpLoop_hard_spec L _ _ _ _ _ h
          dsimp only at hpre hinv
          refine ⟨hpre, ?_, hbnd⟩
          rw [← hrem]
          exact hinv

lemma runChunks_spec {σ : Type} {S : Source σ} (L : Lawful S) (ft : Nat) :
    ∀ (n : Nat) (e : CB σ) (acc chunks : List (List Nat)) (e' : CB σ),
      runChunks S ft n e acc = RunOut.done chunks e' →
      chunks.flatten = acc.flatten ++ e.buffer ++ S.rem e.src := by
  intro n
  induction n with
  | zero =>
    intro e acc chunks e' h
    simp [runChunks] at h
  | succ m ih =>
    intro e acc chunks e' h
    simp only [runChunks] at h
    split at h
    · -- a chunk was returned and consumed in full
      rename_i view e2 hfill
      obtain ⟨e'', hcons, hbuf'', hbnd'', hinv⟩ := fill_round_spec L ft e view e2 hfill
      split at h
      · rename_i x heq
        rw [hcons] at heq
        obtain rfl : e'' = x := by injection heq
        calc chunks.flatten
            = (acc ++ [view]).flatten ++ e''.buffer ++ S.rem e''.src := ih _ _ _ _ h
          _ = acc.flatten ++ (view ++ S.rem e''.src) := by
              rw [hbuf'']
              simp [List.append_assoc]
          _ = acc.flatten ++ (e.buffer ++ S.rem e.src) := by rw [hinv]
          _ = acc.flatten ++ e.buffer ++ S.rem e.src := by rw [List.append_assoc]
      · rename_i heq
        rw [hcons] at heq
        exact absurd heq (by simp)
    · -- the engine reported end of input
      rename_i e2 hfill
      simp only [RunOut.done.injEq] at h
      obtain ⟨rfl, rfl⟩ := h
      obtain ⟨h1, -, h3, -⟩ := fill_eof_spec L ft e e2 hfill
      rw [h1, h3]
      simp
    · simp at h
    · simp at h
    · simp at h

lemma fill_buf_of_ready {σ : Type} (S : Source σ) (ft : Nat) (e : CB σ)
    (hc : contains_slice e.buffer e.boundary = true) :
    fill_buf S ft e = FillOut.ok e.buffer e := by
  simp only [fill_buf]
  rw [if_pos hc]

lemma fill_buf_mem_tail (bnd buf : List Nat) (k : Nat)
    (hc : contains_slice buf bnd = false) (hne : buf ≠ []) :
    fill_buf memSrc (k + 1) ⟨bnd, buf, []⟩ = FillOut.ok buf ⟨bnd, buf, []⟩ := by
  simp only [fill_buf]
  rw [if_neg (by simp [hc]), if_pos (List.length_pos.mpr hne)]
  simp only [top_up]
  rw [if_neg (by simp [hc])]
  rfl

lemma fill_buf_mem_fast (bnd l : List Nat) (ft : Nat) (hl : l ≠ [])
    (hc : contains_slice l bnd = true) :
    fill_buf memSrc ft ⟨bnd, [], l⟩ = FillOut.ok l ⟨bnd, [], l⟩ := by
  simp only [fill_buf]
  rw [if_neg (by simp [contains_slice_nil]), if_neg (by simp)]
  have hfill : memSrc.fill l = (Except.ok l, l) := by simp [memSrc, hl]
  rw [hfill]
  dsimp only
  rw [if_pos hc]

lemma fillMem_ok_cases (ft : Nat) (e : CB (List Nat)) (view : List Nat)
    (e' : CB (List Nat)) (h : fill_buf memSrc ft e = FillOut.ok view e') :
    (view = e'.buffer ∧ e'.boundary = e.boundary ∧ e'.buffer ≠ [] ∧
      (contains_slice e'.buffer e'.boundary = true ∨ e'.src = [])) ∨
    (e'.buffer = [] ∧ view = e'.src ∧
      contains_slice view e'.boundary = true ∧ e'.boundary = e.boundary) := by
  simp only [fill_buf] at h
  split at h
  · -- Exit 1: buffered chunk returned unchanged
    rename_i hc
    simp only [FillOut.ok.injEq] at h
    obtain ⟨rfl, rfl⟩ := h
    exact Or.inl ⟨rfl, rfl, ne_nil_of_contains_slice hc, Or.inl hc⟩
  · split at h
    · -- Exit 2: topped up from a non-empty buffer
      rename_i hc hpos
      rw [top_up, if_neg (by simp [hc])] at h
      obtain ⟨hview, hbnd, hinv, ⟨t, ht⟩, hdisj⟩ :=
        topUpLoop_ok_spec mem_lawful _ _ _ _ _ _ h
      refine Or.inl ⟨hview, hbnd, ?_, ?_⟩
      · rw [ht]
        intro hcon
        rcases List.append_eq_nil.mp hcon with ⟨h1, -⟩
        rw [h1] at hpos
        simp at hpos
      · rw [hbnd]
        exact hdisj
    · rename_i hc hlen
      have hbuf : e.buffer = [] :=
        List.length_eq_zero.mp (Nat.eq_zero_of_not_pos hlen)
      split at h
      · simp at h
      · simp at h
      · rename_i read s' heq
        have hsrc : e.src ≠ [] := by
          intro hcon
          exact mem_lawful.fill_at_end _ _ _ hcon heq
        have heq2 : read = e.src ∧ s' = e.src := by
          rw [show memSrc.fill e.src =
            (Except.ok e.src, e.src) from by simp [memSrc, hsrc]] at heq
          simp only [Prod.mk.injEq, Except.ok.injEq] at heq
          exact ⟨heq.1.symm, heq.2.symm⟩
        obtain ⟨rfl, rfl⟩ := heq2
        split at h
        · -- Exit 4: zero-copy fast path
          rename_i hcr
          simp only [FillOut.ok.injEq] at h
          obtain ⟨rfl, rfl⟩ := h
          exact Or.inr ⟨hbuf, rfl, hcr, rfl⟩
        · -- Exit 5: topped up from empty
          rw [top_up, if_neg (by simp [hbuf, contains_slice_nil])] at h
          obtain ⟨hview, hbnd, hinv, -, hdisj⟩ :=
            topUpLoop_ok_spec mem_lawful _ _ _ _ _ _ h
          dsimp only at hview hbnd hinv hdisj
          rw [hbuf] at hinv
          refine Or.inl ⟨hview, hbnd, ?_, by rw [hbnd]; exact hdisj⟩
          rcases hdisj with hd | hd
          · exact ne_nil_of_contains_slice hd
          · rw [hd, List.append_nil] at hinv
            rw [← hinv]
            simpa [memSrc] using hsrc

/-- C6 (amended).  Two consecutive `fill()` calls with no intervening
`consume()` return byte-identical content over the direct in-memory
source, whose `fill` is stable (it always offers the same view for the
same remaining bytes); this covers every engine state including the
zero-copy fast path.  (With an unstable fragmenting source the fast path
can return different views, as the counterexample shows.) -/
theorem c6_peek_stable (ft ft' : Nat) (e : CB (List Nat)) (view : List Nat)
    (e' : CB (List Nat)) (h : fill_buf memSrc ft e = FillOut.ok view e')
    (hft : 1 ≤ ft') :
    ∃ e'', fill_buf memSrc ft' e' = FillOut.ok view e'' := by
  rcases fillMem_ok_cases ft e view e' h with
    ⟨hview, hbnd, hne, hdisj⟩ | ⟨hbuf0, hviewsrc, hcv, hbnd⟩
  · by_cases hc : contains_slice e'.buffer e'.boundary = true
    · refine ⟨e', ?_⟩
      rw [fill_buf_of_ready memSrc ft' e' hc, hview]
    · have hsrc : e'.src = [] := by
        rcases hdisj with hd | hd
        · exact absurd hd hc
        · exact hd
      obtain ⟨k, rfl⟩ : ∃ k, ft' = k + 1 := ⟨ft' - 1, by omega⟩
      refine ⟨⟨e'.boundary, e'.buffer, []⟩, ?_⟩
      have hrect : e' = ⟨e'.boundary, e'.buffer, []⟩ := by
        rcases e' with ⟨b0, b1, b2⟩
        dsimp only at hsrc
        rw [hsrc]
      rw [hrect] at hc ⊢
      rw [fill_buf_mem_tail e'.boundary e'.buffer k (by simpa using hc) hne, hview]
  · obtain ⟨b0, b1, b2⟩ := e'
    dsimp only at hbuf0 hviewsrc hcv
    subst hbuf0
    subst hviewsrc
    refine ⟨⟨b0, [], view⟩, ?_⟩
    exact fill_buf_mem_fast b0 view ft' (ne_nil_of_contains_slice hcv) hcv

/-- Witness for C6 at a concrete input: with the in-memory source holding
`[10,10,3]`, the fast-path fill returns `[10,10,3]` and so does a second
fill with no consume in between. -/
theorem c6_peek_stable_witness :
    ∃ e'', fill_buf memSrc 1 ⟨[10, 10], [], [10, 10, 3]⟩ =
      FillOut.ok [10, 10, 3] e'' :=
  c6_peek_stable 1 1 ⟨[10, 10], [], [10, 10, 3]⟩ [10, 10, 3]
    ⟨[10, 10], [], [10, 10, 3]⟩ rfl (by decide)

/-- C7 (amended).  The scan window checked for a boundary-spanning
delimiter is exactly `[max(0, old-(bound-1)), min(old+(bound-1), new))`
where `new = old + read_len` — its upper end is clipped to
`old + (bound-1)` and is not in general `new_length` as claimed. -/
theorem c7_window_amended (old b rl : Nat) (hb : 1 ≤ b) :
    (scan_start old b : ℤ) = max 0 ((old : ℤ) - ((b : ℤ) - 1)) ∧
    (scan_end old b rl : ℤ) =
      min ((old : ℤ) + ((b : ℤ) - 1)) ((old : ℤ) + (rl : ℤ)) := by
  constructor
  · unfold scan_start
    omega
  · unfold scan_end
    omega

/-- Witness for C7 at a concrete input: old length 1, delimiter length 2,
read length 3. -/
theorem c7_window_amended_witness :
    (scan_start 1 2 : ℤ) = max 0 ((1 : ℤ) - ((2 : ℤ) - 1)) ∧
    (scan_end 1 2 3 : ℤ) =
      min ((1 : ℤ) + ((2 : ℤ) - 1)) ((1 : ℤ) + (3 : ℤ)) :=
  c7_window_amended 1 2 3 (by decide)

lemma streamingForLoop_rec {S T : Type} (nx : S → Option T × S) (stop : T → Bool) :
    ∀ (fuel : Nat) (s : S) (l0 : List T) (s' : S) (l' : List T),
      streamingForLoop nx (recBody stop) fuel s l0 = some (s', l') →
      l' = l0 ++ yieldedUntil nx stop fuel s := by
  intro fuel
  induction fuel with
  | zero =>
    intro s l0 s' l' h
    simp [streamingForLoop] at h
  | succ f ih =>
    intro s l0 s' l' h
    rcases hnx : nx s with ⟨o, s2⟩
    simp only [streamingForLoop] at h
    rw [hnx] at h
    simp only [yieldedUntil]
    rw [hnx]
    rcases o with - | t
    · simp only [Option.some.injEq, Prod.mk.injEq] at h
      obtain ⟨-, rfl⟩ := h
      simp
    · simp only [recBody] at h
      dsimp only
      by_cases hstop : stop t = true
      · rw [if_pos hstop] at h
        simp only [Option.some.injEq, Prod.mk.injEq] at h
        obtain ⟨-, rfl⟩ := h
        rw [if_pos hstop]
      · rw [if_neg hstop] at h
        rw [if_neg hstop]
        have := ih s2 (l0 ++ [t]) s' l' h
        rw [this, List.append_assoc]
        rfl

/-- C8.  The `streaming_for!` loop construct evaluates the
iterator-producing expression exactly once (its effect on the ambient
state is one application of `expr`, for every body and accumulator), and
executes the body exactly once per item yielded by successive `next`
calls, in yield order, stopping at the first `None` or at an early exit:
running it with a recording body reproduces the specified yield trace. -/
theorem c8_loop {Γ S T B : Type} (expr : Γ → S × Γ) (nx : S → Option T × S)
    (stop : T → Bool) (fuel : Nat) (g : Γ) :
    (∀ (body : T → B → BodyStep B) (b : B),
      (streaming_for expr nx body fuel g b).1 = (expr g).2) ∧
    (∀ (l0 : List T) (s' : S) (l' : List T),
      (streaming_for expr nx (recBody stop) fuel g l0).2 = some (s', l') →
      l' = l0 ++ yieldedUntil nx stop fuel (expr g).1) := by
  constructor
  · intro body b
    rcases hg : expr g with ⟨s, g'⟩
    simp [streaming_for, hg]
  · intro l0 s' l' h
    rcases hg : expr g with ⟨s, g'⟩
    simp only [streaming_for, hg] at h
    exact streamingForLoop_rec nx stop fuel s l0 s' l' h

/-- Witness for C8 at a concrete input: an iterator counting 0,1,2 with
no early exit; the expression's effect happens once and the body runs on
exactly the yielded items in order. -/
theorem c8_loop_witness :
    (streaming_for (fun g => (0, g + 1))
      (fun s => if s < 3 then (some s, s + 1) else (none, s))
      (recBody (fun _ => false)) 10 0 []).1 = 1 ∧
    ([0, 1, 2] : List Nat) = [] ++ yieldedUntil
      (fun s => if s < 3 then (some s, s + 1) else (none, s))
      (fun _ => false) 10 0 := by
  constructor
  · exact (c8_loop (fun g => (0, g + 1))
      (fun s => if s < 3 then (some s, s + 1) else (none, s))
      (fun _ => false) 10 0).1 (recBody (fun _ => false)) []
  · exact (@c8_loop ℕ ℕ ℕ (List ℕ) (fun g => (0, g + 1))
      (fun s => if s < 3 then (some s, s + 1) else (none, s))
      (fun _ => false) 10 0).2 [] 3 [0, 1, 2] rfl

/-- C3.  For every non-empty delimiter and every lawful source, if
repeatedly calling `fill_buf` and consuming each returned chunk in full
terminates with the end-of-input signal, the concatenation of the
returned chunks is exactly the source's byte stream.  (Termination is the
run reaching `RunOut.done` within the given fuel.) -/
theorem c3_roundtrip {σ : Type} (S : Source σ) (bnd : List Nat) (s0 : σ)
    (ft n : Nat) (chunks : List (List Nat)) (efin : CB σ)
    (L : Lawful S) (_hbnd : bnd ≠ [])
    (hrun : runChunks S ft n ⟨bnd, [], s0⟩ [] = RunOut.done chunks efin) :
    chunks.flatten = S.rem s0 := by
  have := runChunks_spec L ft n ⟨bnd, [], s0⟩ [] chunks efin hrun
  simpa using this

/-- Witness for C3 at a concrete input: the stream `"a\n\nb"` over the
in-memory source is returned as one chunk whose contents are the whole
stream. -/
theorem c3_roundtrip_witness :
    List.flatten [[97, 10, 10, 98]] = memSrc.rem [97, 10, 10, 98] :=
  c3_roundtrip memSrc [10, 10] [97, 10, 10, 98] 3 4 [[97, 10, 10, 98]]
    ⟨[10, 10], [], []⟩ mem_lawful (by decide) rfl

/-- C4 (amended).  When a `fill()` call on the engine propagates a hard
I/O error from a lawful source, the erroring source call itself mutates
nothing: the resulting accumulation buffer is the pre-call buffer
extended by exactly the bytes appended by the earlier successful reads of
the same call (equal to the pre-call buffer when the error hits the first
read), and no bytes are lost — pre-call buffer plus the source's pre-call
remainder equals the post-call buffer plus the post-call remainder. -/
theorem c4_error_frame {σ : Type} (S : Source σ) (ft : Nat) (e e' : CB σ)
    (L : Lawful S) (h : fill_buf S ft e = FillOut.hardErr e') :
    (∃ t, e'.buffer = e.buffer ++ t) ∧
    e.buffer ++ S.rem e.src = e'.buffer ++ S.rem e'.src ∧
    e'.boundary = e.boundary :=
  fill_hard_spec L ft e e' h

/-- Witness for C4 at a concrete input: buffer `[1]`, a source yielding
`[2]` and then a hard error; the failed call leaves `[1,2]`, an extension
of `[1]`, with no bytes lost. -/
theorem c4_error_frame_witness :
    (∃ t, ([1, 2] : List Nat) = [1] ++ t) ∧
    ([1] : List Nat) ++ [2] = [1, 2] ++ [] ∧
    ([10, 10] : List Nat) = [10, 10] :=
  c4_error_frame errSrc 3 ⟨[10, 10], [1], ([2], [false, true])⟩
    ⟨[10, 10], [1, 2], ([], [])⟩ err_lawful rfl

/-- C9.  For every non-empty delimiter, every stream and every sequence
of fragment-length draws, if both the run of the engine over the
fragmenting wrapper of the in-memory source and the run over the
in-memory source directly terminate at end-of-input, the two
concatenations of returned chunks are byte-identical. -/
theorem c9_frag_invariance (bnd stream draws : List Nat)
    (ft n ft' n' : Nat) (chunks chunks' : List (List Nat))
    (e1 : CB (List Nat × List Nat)) (e2 : CB (List Nat))
    (_hbnd : bnd ≠ [])
    (h1 : runChunks (dribble memSrc) ft n ⟨bnd, [], (stream, draws)⟩ [] =
      RunOut.done chunks e1)
    (h2 : runChunks memSrc ft' n' ⟨bnd, [], stream⟩ [] = RunOut.done chunks' e2) :
    chunks.flatten = chunks'.flatten := by
  have d1 := runChunks_spec (dribble_lawful mem_lawful) ft n
    ⟨bnd, [], (stream, draws)⟩ [] chunks e1 h1
  have d2 := runChunks_spec mem_lawful ft' n' ⟨bnd, [], stream⟩ [] chunks' e2 h2
  rw [d1, d2]
  rfl

/-- Witness for C9 at a concrete input: stream `[1,10,10,2]`, fragmented
as `[1,10,10]` then `[2]` versus delivered whole; both runs concatenate
to the same bytes. -/
theorem c9_frag_invariance_witness :
    List.flatten [[1, 10, 10], [2]] = List.flatten [[1, 10, 10, 2]] :=
  c9_frag_invariance [10, 10] [1, 10, 10, 2] [3, 5, 5] 3 6 3 4
    [[1, 10, 10], [2]] [[1, 10, 10, 2]]
    ⟨[10, 10], [], ([], [])⟩ ⟨[10, 10], [], []⟩ (by decide) rfl rfl

/-- C1.  The claim says `consume(n)` on a non-empty accumulation buffer
removes exactly the first `n` bytes, preserving the order of the rest,
and empties the buffer exactly when `n` equals the old length.  The code
violates this: on buffer `[1,2,3,4,5]`, `consume(2)` leaves `[5,4]`
instead of `[3,4,5]` (wrong length and wrong order), and `consume(0)` on
`[1,2]` empties the buffer even though `0` is not the old length. -/
theorem c1_consume_bug :
    consume memSrc 2 ⟨[10, 10], [1, 2, 3, 4, 5], []⟩ =
      some ⟨[10, 10], [5, 4], []⟩ ∧
    consumeBuffer [1, 2, 3, 4, 5] 2 = [5, 4] ∧
    List.drop 2 [1, 2, 3, 4, 5] = [3, 4, 5] ∧
    ([5, 4] : List Nat) ≠ [3, 4, 5] ∧
    consumeBuffer [1, 2] 0 = [] := by
  refine ⟨rfl, rfl, rfl, by decide, rfl⟩

/-- C2.  The claim says the delimiter search is a genuine substring match
for every needle.  The code hardcodes a scan for `[10,10]` and ignores the
needle: on haystack `[1,2,3]` with needle `[2]` it returns `none` although
the needle occurs, and on haystack `[10,10,1]` with needle `[7]` it
returns `some 0` although the needle occurs nowhere. -/
theorem c2_search_bug :
    contains_slice_pos [1, 2, 3] [2] = none ∧
    occurs [1, 2, 3] [2] = true ∧
    contains_slice_pos [10, 10, 1] [7] = some 0 ∧
    occurs [10, 10, 1] [7] = false := by
  refine ⟨rfl, by decide, rfl, by decide⟩

/-- C5.  The claim says every chunk except possibly the last contains the
configured delimiter `D`.  With `D = [7,7]` over the stream
`[1,10,10,2,7,7,3]` fragmented as `[1,10,10]` then the rest, the engine
returns the non-final chunk `[1,10,10]`, which contains no occurrence of
`[7,7]` (chunks are cut at the hardcoded `[10,10]` instead). -/
theorem c5_boundary_bug :
    runChunks (dribble memSrc) 3 6 ⟨[7, 7], [], ([1, 10, 10, 2, 7, 7, 3], [3, 5, 5])⟩ [] =
      RunOut.done [[1, 10, 10], [2, 7, 7, 3]] ⟨[7, 7], [], ([], [])⟩ ∧
    occurs [1, 10, 10] [7, 7] = false := by
  refine ⟨rfl, by decide⟩

/-- C10.  The claim says that whenever the buffer is empty and the
source's returned view contains the delimiter, `fill()` returns that view
zero-copy, leaving the buffer empty and consuming nothing from the
source.  With delimiter `[7,7]` and a source holding exactly `[7,7]`, the
view `[7,7]` contains the delimiter, yet the code (whose hardcoded search
misses it) copies the view into the accumulation buffer and fully
consumes the source. -/
theorem c10_fastpath_bug :
    fill_buf memSrc 3 ⟨[7, 7], [], [7, 7]⟩ =
      FillOut.ok [7, 7] ⟨[7, 7], [7, 7], []⟩ ∧
    occurs [7, 7] [7, 7] = true := by
  refine ⟨rfl, by decide⟩

/-- C4 counterexample.  The claim says a propagated I/O error leaves the
engine's visible state exactly as it was before the `fill()` call.  With
buffer `[1]` and a source that yields `[2]` and then a hard error, the
failing `fill()` leaves the buffer as `[1,2]`, not `[1]`. -/
theorem c4_error_counterexample :
    fill_buf errSrc 3 ⟨[10, 10], [1], ([2], [false, true])⟩ =
      FillOut.hardErr ⟨[10, 10], [1, 2], ([], [])⟩ ∧
    ([1, 2] : List Nat) ≠ [1] := by
  refine ⟨rfl, by decide⟩

/-- C6 counterexample.  The claim says two consecutive `fill()` calls with
no intervening `consume()` return byte-identical content in every state,
including the zero-copy fast path.  Over the fragmenting source (a
conforming Source Capability) on stream `[10,10,9]` with draws `[5,2]`,
the first fill returns the fast-path view `[10,10,9]` without touching
the engine, and the second fill re-reads the source and returns
`[10,10]`. -/
theorem c6_peek_counterexample :
    fill_buf (dribble memSrc) 3 ⟨[10, 10], [], ([10, 10, 9], [5, 2])⟩ =
      FillOut.ok [10, 10, 9] ⟨[10, 10], [], ([10, 10, 9], [2])⟩ ∧
    fill_buf (dribble memSrc) 3 ⟨[10, 10], [], ([10, 10, 9], [2])⟩ =
      FillOut.ok [10, 10] ⟨[10, 10], [], ([10, 10, 9], [])⟩ ∧
    ([10, 10, 9] : List Nat) ≠ [10, 10] := by
  refine ⟨rfl, rfl, by decide⟩

/-- C7 counterexample.  The claim says the sub-range checked for a
boundary-spanning delimiter is exactly
`[max(0, old-(bound-1)), new_length]`.  With old length 1, delimiter
length 2 and a freshly read view `[2,3,4]` (which does not contain the
delimiter), the code checks `scanWindow [1,2,3,4] 1 2 3 = [1,2]`, whereas
the range claimed — up to `new_length = 4` — would be `[1,2,3,4]`. -/
theorem c7_window_counterexample :
    contains_slice_pos [2, 3, 4] [10, 10] = none ∧
    scanWindow [1, 2, 3, 4] 1 2 3 = [1, 2] ∧
    List.drop (1 - (2 - 1)) (List.take (1 + 3) [1, 2, 3, 4]) = [1, 2, 3, 4] ∧
    ([1, 2] : List Nat) ≠ [1, 2, 3, 4] := by
  refine ⟨rfl, rfl, rfl, by decide⟩

end Streaming
